import Mathlib

/-!
Verification of the rustadup duplicate-file finder (`src/main.rs`) against its
design specification.  The Rust program is shallowly embedded: bytes are `Nat`
values below 256, a file's readable stream is the list of chunks successive
`read` calls deliver, fallible operations return `Except Unit`, and the
`HashMap<_, Vec<DirEntry>>` accumulators are association lists kept in key
first-insertion order (group iteration order is unspecified in the design, so
any fixed order is a faithful model; per-group entry order is modelled
exactly).
-/

namespace Rustadup

/-- Buffer size for the hash processing (`const BUFFER_SIZE: usize = 1024`). -/
def BUFFER_SIZE : Nat := 1024

/-- Small-file skip threshold (`const SMALL_FILE_SIZE: u64 = 1024 * 1024 * 8`). -/
def SMALL_FILE_SIZE : Nat := 1024 * 1024 * 8

/-- Big-file skip threshold (`const BIG_FILE_SIZE: u64 = 1024 * SMALL_FILE_SIZE`). -/
def BIG_FILE_SIZE : Nat := 1024 * SMALL_FILE_SIZE

/-! ### SHA-256
Model of the external `sha2` crate's SHA-256 (FIPS 180-4), the digest algorithm
`process::<Sha256, _>` instantiates.  Words are `Nat` reduced mod `2^32`; the
test vectors for the empty message and `"abc"` are proved below. -/

/-- `2^32`, the word modulus of SHA-256. -/
def M32 : Nat := 4294967296

/-- Right-rotation of a 32-bit word by `n` places. -/
def rotr (n x : Nat) : Nat := ((x >>> n) ||| (x <<< (32 - n))) % M32

/-- FIPS 180-4 `Σ0`. -/
def bsig0 (x : Nat) : Nat := (rotr 2 x) ^^^ (rotr 13 x) ^^^ (rotr 22 x)

/-- FIPS 180-4 `Σ1`. -/
def bsig1 (x : Nat) : Nat := (rotr 6 x) ^^^ (rotr 11 x) ^^^ (rotr 25 x)

/-- FIPS 180-4 `σ0`. -/
def ssig0 (x : Nat) : Nat := (rotr 7 x) ^^^ (rotr 18 x) ^^^ (x >>> 3)

/-- FIPS 180-4 `σ1`. -/
def ssig1 (x : Nat) : Nat := (rotr 17 x) ^^^ (rotr 19 x) ^^^ (x >>> 10)

/-- FIPS 180-4 `Ch e f g`; the complement of `e` is taken inside 32 bits. -/
def chF (e f g : Nat) : Nat := (e &&& f) ^^^ ((e ^^^ (M32 - 1)) &&& g)

/-- FIPS 180-4 `Maj a b c`. -/
def majF (a b c : Nat) : Nat := (a &&& b) ^^^ (a &&& c) ^^^ (b &&& c)

/-- The 64 SHA-256 round constants. -/
def K256 : List Nat :=
  [1116352408, 1899447441, 3049323471, 3921009573, 961987163, 1508970993,
   2453635748, 2870763221, 3624381080, 310598401, 607225278, 1426881987,
   1925078388, 2162078206, 2614888103, 3248222580, 3835390401, 4022224774,
   264347078, 604807628, 770255983, 1249150122, 1555081692, 1996064986,
   2554220882, 2821834349, 2952996808, 3210313671, 3336571891, 3584528711,
   113926993, 338241895, 666307205, 773529912, 1294757372, 1396182291,
   1695183700, 1986661051, 2177026350, 2456956037, 2730485921, 2820302411,
   3259730800, 3345764771, 3516065817, 3600352804, 4094571909, 275423344,
   430227734, 506948616, 659060556, 883997877, 958139571, 1322822218,
   1537002063, 1747873779, 1955562222, 2024104815, 2227730452, 2361852424,
   2428436474, 2756734187, 3204031479, 3329325298]

/-- The SHA-256 initial hash value. -/
def H256 : List Nat :=
  [1779033703, 3144134277, 1013904242, 2773480762,
   1359893119, 2600822924, 528734635, 1541459225]

/-- Appends the next word of the message schedule. -/
def scheduleStep (w : List Nat) : List Nat :=
  w ++ [(ssig1 (w.getD (w.length - 2) 0) + w.getD (w.length - 7) 0 +
         ssig0 (w.getD (w.length - 15) 0) + w.getD (w.length - 16) 0) % M32]

/-- Expands a 16-word block to the full 64-word message schedule. -/
def fullSchedule (block : List Nat) : List Nat := Nat.repeat scheduleStep 48 block

/-- One SHA-256 compression round on the state `[a,b,c,d,e,f,g,h]`,
given the pair of round constant and schedule word. -/
def roundStep (s : List Nat) (kw : Nat × Nat) : List Nat :=
  match s with
  | [a, b, c, d, e, f, g, h] =>
    let t1 := (h + bsig1 e + chF e f g + kw.1 + kw.2) % M32
    let t2 := (bsig0 a + majF a b c) % M32
    [(t1 + t2) % M32, a, b, c, (d + t1) % M32, e, f, g]
  | other => other

/-- SHA-256 compression of one 16-word block into the running state. -/
def compress (state block : List Nat) : List Nat :=
  let s2 := (List.zip K256 (fullSchedule block)).foldl roundStep state
  List.zipWith (fun x y => (x + y) % M32) state s2

/-- Big-endian byte expansion of a value into `n` bytes. -/
def toBytesBE : Nat → Nat → List Nat
  | 0, _ => []
  | n + 1, v => toBytesBE n (v / 256) ++ [v % 256]

/-- Packs a byte list into big-endian 32-bit words, four bytes at a time. -/
def bytesToWords : List Nat → List Nat
  | a :: b :: c :: d :: rest => (((a * 256 + b) * 256 + c) * 256 + d) :: bytesToWords rest
  | _ => []

/-- FIPS 180-4 padding: a `0x80` byte, zeros to 56 mod 64, then the bit length
in 8 big-endian bytes. -/
def sha256pad (m : List Nat) : List Nat :=
  m ++ [128] ++ List.replicate ((119 - m.length % 64) % 64) 0 ++ toBytesBE 8 (8 * m.length)

/-- Splits a (padded) byte list into 16-word blocks. -/
def toBlocks (l : List Nat) : List (List Nat) :=
  (List.range (l.length / 64)).map (fun i => bytesToWords ((l.drop (64 * i)).take 64))

/-- The SHA-256 digest of a byte list, as its list of 32 digest bytes
(the `GenericArray<u8, OutputSize>` the Rust code uses as part of a key). -/
def sha256 (m : List Nat) : List Nat :=
  (((toBlocks (sha256pad m)).foldl compress H256).map (toBytesBE 4)).flatten

/-! ### The streaming hash loop (`process`)
A reader is the list of outcomes successive `reader.read(&mut buffer)` calls
would deliver: each element is either an I/O error or the chunk of bytes read
(at most `BUFFER_SIZE` of them, since the destination buffer has that size).
An exhausted reader answers every further `read` with `Ok(0)` bytes, as a
`Read` at end of file does. -/

deriving instance DecidableEq for Except

/-- One read outcome: an I/O error, or the bytes the call returned. -/
abbrev ReadResult := Except Unit (List Nat)

/-- The `loop` of `process`: read a chunk, feed it to the hasher, and stop
after a read that yields zero bytes or fewer than `BUFFER_SIZE` bytes.
Returns the byte sequence fed to the hasher, or the first read error. -/
def processChunks : List ReadResult → Except Unit (List Nat)
  | [] => Except.ok []
  | Except.error e :: _ => Except.error e
  | Except.ok c :: rest =>
    if c.length == 0 || c.length < BUFFER_SIZE then Except.ok c
    else (processChunks rest).map (fun t => c ++ t)

/-- `fn process<D, R>(reader) -> Result<GenericArray<u8, OutputSize>, Error>`
at `D = Sha256`: run the read loop and finalize the accumulated digest.
The `sha2` crate's incremental `update`/`finalize` over the fed chunks equals
the digest of their concatenation, so the digest is `sha256` of the bytes the
loop fed. -/
def process (reader : List ReadResult) : Except Unit (List Nat) :=
  (processChunks reader).map sha256

/-- Bytes fed to the hasher by `process` when every read succeeds. -/
def processFed : List (List Nat) → List Nat
  | [] => []
  | c :: rest =>
    if c.length == 0 || c.length < BUFFER_SIZE then c else c ++ processFed rest

/-- A well-behaved reader in the sense of the design: every read fills the
1024-byte buffer completely except possibly the final one, after which no
data remains (so a short read happens only at end of stream). -/
def wellBehavedChunks : List (List Nat) → Bool
  | [] => true
  | [c] => c.length ≤ BUFFER_SIZE
  | c :: c2 :: rest => (c.length == BUFFER_SIZE) && wellBehavedChunks (c2 :: rest)

/-! ### The classification engine -/

/-- A file-system entry as the core consumes it: its base name and full path,
the outcome of `entry.metadata()?.len()`, whether the walker reports it as a
directory, and the outcome of `fs::File::open` (an open error, or the reader
the hash loop will consume). -/
structure DirEntry where
  file_name : String
  path : String
  is_dir : Bool
  metadata : Except Unit Nat
  openFile : Except Unit (List ReadResult)
deriving DecidableEq, Repr

/-- `filenames.entry(k).or_insert(Vec::new()).push(entry)`: append the entry
to the group of key `k`, creating the group if the key is new. -/
def insertEntry {κ : Type} [DecidableEq κ] (k : κ) (e : DirEntry) :
    List (κ × List DirEntry) → List (κ × List DirEntry)
  | [] => [(k, [e])]
  | (k', v) :: rest =>
    if k' = k then (k', v ++ [e]) :: rest else (k', v) :: insertEntry k e rest

/-- The group stored under key `k`, `[]` when the key is absent. -/
def lookupGroup {κ : Type} [DecidableEq κ] (t : List (κ × List DirEntry)) (k : κ) :
    List DirEntry :=
  match t with
  | [] => []
  | (k', v) :: rest => if k' = k then v else lookupGroup rest k

/-- The accumulation loop of `file_names`: group every entry under its
base name. -/
def names_loop : List DirEntry → List (String × List DirEntry) →
    List (String × List DirEntry)
  | [], t => t
  | e :: rest, t => names_loop rest (insertEntry e.file_name e t)

/-- `fn file_names`: build the name table, then print every group whose
length is not 1, as the group name followed by the member paths.  The
returned value models the printed report. -/
def file_names (es : List DirEntry) : List (String × List String) :=
  ((names_loop es []).filter (fun g => g.2.length != 1)).map
    (fun g => (g.1, g.2.map DirEntry.path))

/-- The accumulation loop of `file_names_sizes`: `entry.metadata()?` aborts on
the first metadata error, otherwise the entry is grouped under (name, size). -/
def names_sizes_loop : List DirEntry → List ((String × Nat) × List DirEntry) →
    Except Unit (List ((String × Nat) × List DirEntry))
  | [], t => Except.ok t
  | e :: rest, t =>
    match e.metadata with
    | Except.error err => Except.error err
    | Except.ok f_size => names_sizes_loop rest (insertEntry (e.file_name, f_size) e t)

/-- `fn file_names_sizes`: the printed report, or the error that aborted the
run (in which case nothing is printed). -/
def file_names_sizes (es : List DirEntry) : Except Unit (List (String × List String)) :=
  (names_sizes_loop es []).map (fun t =>
    (t.filter (fun g => g.2.length != 1)).map (fun g => (g.1.1, g.2.map DirEntry.path)))

/-- The size-policy condition of `file_hashes`:
`(bigfile && f_size > BIG_FILE_SIZE) || (smallfile && f_size < SMALL_FILE_SIZE)`. -/
def skip_condition (bigfile smallfile : Bool) (f_size : Nat) : Bool :=
  (bigfile && decide (f_size > BIG_FILE_SIZE)) ||
  (smallfile && decide (f_size < SMALL_FILE_SIZE))

/-- The accumulation loop of `file_hashes`: read the size (aborting on a
metadata error), `continue` when the size policy says skip, otherwise open the
file and hash it (aborting on an open or read error), and group the entry
under (name, size, digest). -/
def hashes_loop (bigfile smallfile : Bool) :
    List DirEntry → List ((String × Nat × List Nat) × List DirEntry) →
    Except Unit (List ((String × Nat × List Nat) × List DirEntry))
  | [], t => Except.ok t
  | e :: rest, t =>
    match e.metadata with
    | Except.error err => Except.error err
    | Except.ok f_size =>
      if skip_condition bigfile smallfile f_size then
        hashes_loop bigfile smallfile rest t
      else
        match e.openFile with
        | Except.error err => Except.error err
        | Except.ok reader =>
          match process reader with
          | Except.error err => Except.error err
          | Except.ok f_hash =>
            hashes_loop bigfile smallfile rest (insertEntry (e.file_name, f_size, f_hash) e t)

/-- `fn file_hashes`: the printed report (group name is the first component
of the key tuple), or the error that aborted the run. -/
def file_hashes (es : List DirEntry) (bigfile smallfile : Bool) :
    Except Unit (List (String × List String)) :=
  (hashes_loop bigfile smallfile es []).map (fun t =>
    (t.filter (fun g => g.2.length != 1)).map (fun g => (g.1.1, g.2.map DirEntry.path)))

/-- What `file_hashes` does with one entry: abort with an error, skip it
(`Except.ok none`), or classify it under a key (`Except.ok (some key)`). -/
def entryOutcome (bigfile smallfile : Bool) (e : DirEntry) :
    Except Unit (Option (String × Nat × List Nat)) :=
  match e.metadata with
  | Except.error err => Except.error err
  | Except.ok f_size =>
    if skip_condition bigfile smallfile f_size then Except.ok none
    else
      match e.openFile with
      | Except.error err => Except.error err
      | Except.ok reader => (process reader).map (fun h => some (e.file_name, f_size, h))

/-- The walker pipeline of `main`: `WalkDir::new(dir).into_iter()
.filter_map(Result::ok).filter(|e| !e.file_type().is_dir())` — traversal
errors are dropped, then directories are dropped. -/
def walk_filter (items : List (Except Unit DirEntry)) : List DirEntry :=
  (items.filterMap Except.toOption).filter (fun e => ! e.is_dir)

/-! ### Sample entries used to instantiate theorems with hypotheses -/

/-- A zero-byte file `a/x.txt` whose reads all succeed. -/
def sampleA : DirEntry :=
  { file_name := "x.txt", path := "a/x.txt", is_dir := false,
    metadata := Except.ok 0, openFile := Except.ok [] }

/-- A zero-byte file `b/x.txt` whose reads all succeed. -/
def sampleB : DirEntry :=
  { file_name := "x.txt", path := "b/x.txt", is_dir := false,
    metadata := Except.ok 0, openFile := Except.ok [] }

/-- An entry whose metadata read and open both fail. -/
def sampleBad : DirEntry :=
  { file_name := "y.txt", path := "c/y.txt", is_dir := false,
    metadata := Except.error (), openFile := Except.error () }

/-! ### Lemmas about the group accumulator -/

theorem lookupGroup_insertEntry_self {κ : Type} [DecidableEq κ] (k : κ) (e : DirEntry) :
    ∀ t : List (κ × List DirEntry),
      lookupGroup (insertEntry k e t) k = lookupGroup t k ++ [e]
  | [] => by simp [insertEntry, lookupGroup]
  | (k', v) :: rest => by
    by_cases h : k' = k
    · subst h; simp [insertEntry, lookupGroup]
    · simp [insertEntry, lookupGroup, h, lookupGroup_insertEntry_self k e rest]

theorem lookupGroup_insertEntry_ne {κ : Type} [DecidableEq κ] {k k' : κ} (h : k' ≠ k)
    (e : DirEntry) : ∀ t : List (κ × List DirEntry),
      lookupGroup (insertEntry k e t) k' = lookupGroup t k'
  | [] => by simp [insertEntry, lookupGroup, Ne.symm h]
  | (k'', v) :: rest => by
    by_cases h2 : k'' = k
    · subst h2
      have h3 : ¬ k'' = k' := fun hh => h (hh ▸ rfl)
      simp [insertEntry, lookupGroup, h3]
    · by_cases h3 : k'' = k'
      · subst h3; simp [insertEntry, lookupGroup, h2]
      · simp [insertEntry, lookupGroup, h2, h3, lookupGroup_insertEntry_ne h e rest]

theorem insertEntry_keys {κ : Type} [DecidableEq κ] (k : κ) (e : DirEntry) :
    ∀ t : List (κ × List DirEntry),
      (insertEntry k e t).map Prod.fst =
        if k ∈ t.map Prod.fst then t.map Prod.fst else t.map Prod.fst ++ [k]
  | [] => by simp [insertEntry]
  | (k', v) :: rest => by
    by_cases h : k' = k
    · subst h; simp [insertEntry]
    · have h' : ¬ k = k' := fun hh => h (hh ▸ rfl)
      by_cases h2 : k ∈ rest.map Prod.fst <;>
        simp [insertEntry, insertEntry_keys k e rest, h, h', h2]

theorem mem_insertEntry_keys {κ : Type} [DecidableEq κ] (k k' : κ) (e : DirEntry)
    (t : List (κ × List DirEntry)) :
    k' ∈ (insertEntry k e t).map Prod.fst ↔ k' ∈ t.map Prod.fst ∨ k' = k := by
  rw [insertEntry_keys]
  by_cases h : k ∈ t.map Prod.fst
  · simp only [if_pos h]
    constructor
    · exact Or.inl
    · rintro (hm | rfl)
      · exact hm
      · exact h
  · simp [if_neg h]

theorem insertEntry_keys_nodup {κ : Type} [DecidableEq κ] (k : κ) (e : DirEntry)
    (t : List (κ × List DirEntry)) (h : (t.map Prod.fst).Nodup) :
    ((insertEntry k e t).map Prod.fst).Nodup := by
  rw [insertEntry_keys]
  by_cases h2 : k ∈ t.map Prod.fst
  · simpa [h2] using h
  · simp [h2, List.nodup_append, h]

theorem lookupGroup_eq_of_mem {κ : Type} [DecidableEq κ] :
    ∀ {t : List (κ × List DirEntry)}, (t.map Prod.fst).Nodup →
      ∀ {k : κ} {v : List DirEntry}, (k, v) ∈ t → lookupGroup t k = v
  | [], _, _, _, hm => by simp at hm
  | (k', v') :: rest, hnd, k, v, hm => by
    rcases List.mem_cons.mp hm with heq | hm'
    · obtain ⟨rfl, rfl⟩ := Prod.mk.injEq .. ▸ heq
      simp [lookupGroup]
    · rw [List.map_cons, List.nodup_cons] at hnd
      have hk : k ≠ k' := by
        rintro rfl
        exact hnd.1 (List.mem_map.mpr ⟨(k, v), hm', rfl⟩)
      have h' : ¬ k' = k := fun hh => hk (hh ▸ rfl)
      simp [lookupGroup, h', lookupGroup_eq_of_mem hnd.2 hm']

theorem insertEntry_groups_ne_nil {κ : Type} [DecidableEq κ] (k : κ) (e : DirEntry) :
    ∀ t : List (κ × List DirEntry), (∀ g ∈ t, g.2 ≠ []) →
      ∀ g ∈ insertEntry k e t, g.2 ≠ []
  | [], _, g, hg => by
    simp [insertEntry] at hg
    subst hg; simp
  | (k', v) :: rest, h, g, hg => by
    by_cases h2 : k' = k
    · subst h2
      simp only [insertEntry, if_pos rfl] at hg
      rcases List.mem_cons.mp hg with rfl | hm
      · simp
      · exact h g (List.mem_cons_of_mem _ hm)
    · simp only [insertEntry, if_neg h2] at hg
      rcases List.mem_cons.mp hg with rfl | hm
      · exact h (k', v) (List.mem_cons_self _ _)
      · exact insertEntry_groups_ne_nil k e rest
          (fun g' hg' => h g' (List.mem_cons_of_mem _ hg')) g hm

/-! ### Lemmas about the name-only loop -/

theorem names_loop_lookup : ∀ (es : List DirEntry) (t : List (String × List DirEntry))
    (n : String), lookupGroup (names_loop es t) n =
      lookupGroup t n ++ es.filter (fun e => decide (e.file_name = n))
  | [], t, n => by simp [names_loop]
  | e :: rest, t, n => by
    by_cases h : e.file_name = n
    · subst h
      rw [names_loop, names_loop_lookup rest _ _, lookupGroup_insertEntry_self]
      simp [List.filter_cons]
    · have h' : n ≠ e.file_name := fun hh => h (hh ▸ rfl)
      rw [names_loop, names_loop_lookup rest _ _, lookupGroup_insertEntry_ne h']
      simp [List.filter_cons, h]

theorem names_loop_keys_mem : ∀ (es : List DirEntry) (t : List (String × List DirEntry))
    (n : String), n ∈ (names_loop es t).map Prod.fst ↔
      n ∈ t.map Prod.fst ∨ n ∈ es.map DirEntry.file_name
  | [], t, n => by simp [names_loop]
  | e :: rest, t, n => by
    rw [names_loop, names_loop_keys_mem rest _ _, mem_insertEntry_keys]
    simp only [List.map_cons, List.mem_cons]
    tauto

theorem names_loop_keys_nodup : ∀ (es : List DirEntry) (t : List (String × List DirEntry)),
    (t.map Prod.fst).Nodup → ((names_loop es t).map Prod.fst).Nodup
  | [], _, h => h
  | e :: rest, t, h =>
    names_loop_keys_nodup rest _ (insertEntry_keys_nodup _ e t h)

theorem names_loop_groups_ne_nil : ∀ (es : List DirEntry)
    (t : List (String × List DirEntry)), (∀ g ∈ t, g.2 ≠ []) →
      ∀ g ∈ names_loop es t, g.2 ≠ []
  | [], _, h => h
  | e :: rest, t, h =>
    names_loop_groups_ne_nil rest _ (insertEntry_groups_ne_nil _ e t h)

/-! ### Lemmas about the name+size loop -/

theorem names_sizes_loop_lookup :
    ∀ (es : List DirEntry) (t0 t : List ((String × Nat) × List DirEntry)),
      names_sizes_loop es t0 = Except.ok t → ∀ k : String × Nat,
      lookupGroup t k = lookupGroup t0 k ++
        es.filter (fun e => decide (e.file_name = k.1 ∧ e.metadata = Except.ok k.2))
  | [], t0, t, h, k => by
    obtain rfl : t0 = t := by simpa [names_sizes_loop] using h
    simp
  | e :: rest, t0, t, h, k => by
    cases hm : e.metadata with
    | error err => rw [names_sizes_loop, hm] at h; cases h
    | ok f_size =>
      rw [names_sizes_loop, hm] at h
      rw [names_sizes_loop_lookup rest _ t h k]
      by_cases hk : (e.file_name, f_size) = k
      · subst hk
        rw [lookupGroup_insertEntry_self]
        simp [List.filter_cons, hm, List.append_assoc]
      · have hk' : k ≠ (e.file_name, f_size) := fun hh => hk (hh ▸ rfl)
        rw [lookupGroup_insertEntry_ne hk']
        have : ¬ (e.file_name = k.1 ∧ e.metadata = Except.ok k.2) := by
          rintro ⟨h1, h2⟩
          rw [hm] at h2
          cases h2
          exact hk (by cases k; simp_all)
        simp [List.filter_cons, this]

theorem names_sizes_loop_keys_nodup :
    ∀ (es : List DirEntry) (t0 t : List ((String × Nat) × List DirEntry)),
      names_sizes_loop es t0 = Except.ok t →
      (t0.map Prod.fst).Nodup → (t.map Prod.fst).Nodup
  | [], t0, t, h, h0 => by
    obtain rfl : t0 = t := by simpa [names_sizes_loop] using h
    exact h0
  | e :: rest, t0, t, h, h0 => by
    cases hm : e.metadata with
    | error err => rw [names_sizes_loop, hm] at h; cases h
    | ok f_size =>
      rw [names_sizes_loop, hm] at h
      exact names_sizes_loop_keys_nodup rest _ t h (insertEntry_keys_nodup _ e t0 h0)

theorem names_sizes_loop_groups_ne_nil :
    ∀ (es : List DirEntry) (t0 t : List ((String × Nat) × List DirEntry)),
      names_sizes_loop es t0 = Except.ok t →
      (∀ g ∈ t0, g.2 ≠ []) → ∀ g ∈ t, g.2 ≠ []
  | [], t0, t, h, h0 => by
    obtain rfl : t0 = t := by simpa [names_sizes_loop] using h
    exact h0
  | e :: rest, t0, t, h, h0 => by
    cases hm : e.metadata with
    | error err => rw [names_sizes_loop, hm] at h; cases h
    | ok f_size =>
      rw [names_sizes_loop, hm] at h
      exact names_sizes_loop_groups_ne_nil rest _ t h
        (insertEntry_groups_ne_nil _ e t0 h0)


/-! ### Lemmas about the hash loop -/

theorem hashes_loop_lookup (b s : Bool) :
    ∀ (es : List DirEntry) (t0 t : List ((String × Nat × List Nat) × List DirEntry)),
      hashes_loop b s es t0 = Except.ok t → ∀ k : String × Nat × List Nat,
      lookupGroup t k = lookupGroup t0 k ++
        es.filter (fun e => decide (entryOutcome b s e = Except.ok (some k)))
  | [], t0, t, h, k => by
    obtain rfl : t0 = t := by simpa [hashes_loop] using h
    simp
  | e :: rest, t0, t, h, k => by
    rw [hashes_loop] at h
    cases hm : e.metadata with
    | error err => simp only [hm] at h; cases h
    | ok f_size =>
      simp only [hm] at h
      by_cases hskip : skip_condition b s f_size
      · rw [if_pos hskip] at h
        rw [hashes_loop_lookup b s rest _ t h k]
        have : ¬ entryOutcome b s e = Except.ok (some k) := by
          simp [entryOutcome, hm, hskip]
        simp [List.filter_cons, this]
      · rw [if_neg hskip] at h
        cases ho : e.openFile with
        | error err => simp only [ho] at h; cases h
        | ok reader =>
          simp only [ho] at h
          cases hp : process reader with
          | error err => simp only [hp] at h; cases h
          | ok f_hash =>
            simp only [hp] at h
            rw [hashes_loop_lookup b s rest _ t h k]
            have hout : entryOutcome b s e =
                Except.ok (some (e.file_name, f_size, f_hash)) := by
              simp [entryOutcome, hm, hskip, ho, hp, Except.map]
            by_cases hk : (e.file_name, f_size, f_hash) = k
            · subst hk
              rw [lookupGroup_insertEntry_self]
              simp [List.filter_cons, hout, List.append_assoc]
            · have hk' : k ≠ (e.file_name, f_size, f_hash) := fun hh => hk (hh ▸ rfl)
              rw [lookupGroup_insertEntry_ne hk']
              have : ¬ entryOutcome b s e = Except.ok (some k) := by
                rw [hout]
                intro hh
                exact hk (by injection hh with hh2; injection hh2)
              simp [List.filter_cons, this]

theorem hashes_loop_keys_nodup (b s : Bool) :
    ∀ (es : List DirEntry) (t0 t : List ((String × Nat × List Nat) × List DirEntry)),
      hashes_loop b s es t0 = Except.ok t →
      (t0.map Prod.fst).Nodup → (t.map Prod.fst).Nodup
  | [], t0, t, h, h0 => by
    obtain rfl : t0 = t := by simpa [hashes_loop] using h
    exact h0
  | e :: rest, t0, t, h, h0 => by
    rw [hashes_loop] at h
    cases hm : e.metadata with
    | error err => simp only [hm] at h; cases h
    | ok f_size =>
      simp only [hm] at h
      by_cases hskip : skip_condition b s f_size
      · rw [if_pos hskip] at h
        exact hashes_loop_keys_nodup b s rest _ t h h0
      · rw [if_neg hskip] at h
        cases ho : e.openFile with
        | error err => simp only [ho] at h; cases h
        | ok reader =>
          simp only [ho] at h
          cases hp : process reader with
          | error err => simp only [hp] at h; cases h
          | ok f_hash =>
            simp only [hp] at h
            exact hashes_loop_keys_nodup b s rest _ t h
              (insertEntry_keys_nodup _ e t0 h0)

theorem hashes_loop_groups_ne_nil (b s : Bool) :
    ∀ (es : List DirEntry) (t0 t : List ((String × Nat × List Nat) × List DirEntry)),
      hashes_loop b s es t0 = Except.ok t →
      (∀ g ∈ t0, g.2 ≠ []) → ∀ g ∈ t, g.2 ≠ []
  | [], t0, t, h, h0 => by
    obtain rfl : t0 = t := by simpa [hashes_loop] using h
    exact h0
  | e :: rest, t0, t, h, h0 => by
    rw [hashes_loop] at h
    cases hm : e.metadata with
    | error err => simp only [hm] at h; cases h
    | ok f_size =>
      simp only [hm] at h
      by_cases hskip : skip_condition b s f_size
      · rw [if_pos hskip] at h
        exact hashes_loop_groups_ne_nil b s rest _ t h h0
      · rw [if_neg hskip] at h
        cases ho : e.openFile with
        | error err => simp only [ho] at h; cases h
        | ok reader =>
          simp only [ho] at h
          cases hp : process reader with
          | error err => simp only [hp] at h; cases h
          | ok f_hash =>
            simp only [hp] at h
            exact hashes_loop_groups_ne_nil b s rest _ t h
              (insertEntry_groups_ne_nil _ e t0 h0)

theorem hashes_loop_append (b s : Bool) :
    ∀ (xs ys : List DirEntry) (t0 : List ((String × Nat × List Nat) × List DirEntry)),
      hashes_loop b s (xs ++ ys) t0 = (hashes_loop b s xs t0).bind (hashes_loop b s ys)
  | [], ys, t0 => by simp [hashes_loop, Except.bind]
  | e :: rest, ys, t0 => by
    rw [List.cons_append, hashes_loop, hashes_loop]
    cases hm : e.metadata with
    | error err => simp only [hm]; rfl
    | ok f_size =>
      simp only [hm]
      by_cases hskip : skip_condition b s f_size
      · rw [if_pos hskip, if_pos hskip]
        exact hashes_loop_append b s rest ys t0
      · rw [if_neg hskip, if_neg hskip]
        cases ho : e.openFile with
        | error err => simp only [ho]; rfl
        | ok reader =>
          simp only [ho]
          cases hp : process reader with
          | error err => simp only [hp]; rfl
          | ok f_hash =>
            simp only [hp]
            exact hashes_loop_append b s rest ys _

theorem hashes_loop_error_of_mem (b s : Bool) :
    ∀ (es : List DirEntry), ∀ e ∈ es, entryOutcome b s e = Except.error () →
      ∀ t0, hashes_loop b s es t0 = Except.error ()
  | [], e, he, _, _ => by cases he
  | e' :: rest, e, he, hf, t0 => by
    rw [hashes_loop]
    cases hm : e'.metadata with
    | error err => cases err; rfl
    | ok f_size =>
      simp only [hm]
      by_cases hskip : skip_condition b s f_size
      · rw [if_pos hskip]
        rcases List.mem_cons.mp he with rfl | hmem
        · simp [entryOutcome, hm, hskip] at hf
        · exact hashes_loop_error_of_mem b s rest e hmem hf t0
      · rw [if_neg hskip]
        cases ho : e'.openFile with
        | error err => cases err; rfl
        | ok reader =>
          simp only [ho]
          cases hp : process reader with
          | error err => cases err; rfl
          | ok f_hash =>
            simp only [hp]
            rcases List.mem_cons.mp he with rfl | hmem
            · simp [entryOutcome, hm, hskip, ho, hp, Except.map] at hf
            · exact hashes_loop_error_of_mem b s rest e hmem hf _

theorem names_sizes_loop_error_of_mem :
    ∀ (es : List DirEntry), ∀ e ∈ es, e.metadata = Except.error () →
      ∀ t0, names_sizes_loop es t0 = Except.error ()
  | [], e, he, _, _ => by cases he
  | e' :: rest, e, he, hf, t0 => by
    rw [names_sizes_loop]
    cases hm : e'.metadata with
    | error err => cases err; rfl
    | ok f_size =>
      simp only [hm]
      rcases List.mem_cons.mp he with rfl | hmem
      · rw [hm] at hf; cases hf
      · exact names_sizes_loop_error_of_mem rest e hmem hf _

/-! ### Lemmas about the streaming hash loop -/

theorem processChunks_map_ok : ∀ cs : List (List Nat),
    processChunks (cs.map Except.ok) = Except.ok (processFed cs)
  | [] => rfl
  | c :: rest => by
    rw [List.map_cons, processChunks, processFed]
    by_cases h : c.length == 0 || c.length < BUFFER_SIZE
    · rw [if_pos h, if_pos h]
    · rw [if_neg h, if_neg h, processChunks_map_ok rest]
      rfl

theorem processFed_of_wellBehaved : ∀ cs : List (List Nat),
    wellBehavedChunks cs = true → processFed cs = cs.flatten
  | [], _ => by simp [processFed]
  | [c], _ => by
    by_cases h : c.length == 0 || c.length < BUFFER_SIZE <;>
      simp [processFed, h]
  | c :: c2 :: rest, h => by
    rw [wellBehavedChunks] at h
    obtain ⟨h1, h2⟩ := Bool.and_eq_true_iff.mp h
    have hlen : c.length = BUFFER_SIZE := by simpa using h1
    have hc : ¬ (c.length == 0 || c.length < BUFFER_SIZE) = true := by
      rw [hlen]
      decide
    rw [processFed, if_neg hc, processFed_of_wellBehaved (c2 :: rest) h2]
    simp

/-! ### SHA-256 test vectors (sanity of the digest model) -/

theorem sha256_empty_vector :
    sha256 [] =
      [227, 176, 196, 66, 152, 252, 28, 20, 154, 251, 244, 200,
       153, 111, 185, 36, 39, 174, 65, 228, 100, 155, 147, 76,
       164, 149, 153, 27, 120, 82, 184, 85] := by decide

theorem sha256_abc_vector :
    sha256 [97, 98, 99] =
      [186, 120, 22, 191, 143, 1, 207, 234, 65, 65, 64, 222,
       93, 174, 34, 35, 176, 3, 97, 163, 150, 23, 122, 156,
       180, 16, 255, 97, 242, 0, 21, 173] := by decide

/-! ### Claim theorems -/

/-- C1, counterexample: the universal claim fails for readers that deliver a
short read with data still remaining.  The readers delivering chunks
`[[0], [1]]` and `[[0, 1]]` hand over the same total byte sequence `[0, 1]`
(each chunk is within the 1024-byte buffer), yet `process` stops at the first
short read of the first reader and the digests differ. -/
theorem streaming_hash_chunking_cex :
    ([[0], [1]] : List (List Nat)).flatten = ([[0, 1]] : List (List Nat)).flatten ∧
    process (([[0], [1]] : List (List Nat)).map Except.ok) ≠
      process (([[0, 1]] : List (List Nat)).map Except.ok) := by
  refine ⟨rfl, ?_⟩
  decide

/-- C1, amended: for any two well-behaved readers (every read fills the
1024-byte buffer except possibly the final one) delivering the same total
byte sequence, `process` returns the same digest, and that digest is the
digest of the full content. -/
theorem streaming_hash_deterministic (cs1 cs2 : List (List Nat))
    (h1 : wellBehavedChunks cs1 = true) (h2 : wellBehavedChunks cs2 = true)
    (hj : cs1.flatten = cs2.flatten) :
    process (cs1.map Except.ok) = process (cs2.map Except.ok) ∧
    process (cs1.map Except.ok) = Except.ok (sha256 cs1.flatten) := by
  have e1 : process (cs1.map Except.ok) = Except.ok (sha256 cs1.flatten) := by
    rw [process, processChunks_map_ok, processFed_of_wellBehaved cs1 h1]
    rfl
  have e2 : process (cs2.map Except.ok) = Except.ok (sha256 cs2.flatten) := by
    rw [process, processChunks_map_ok, processFed_of_wellBehaved cs2 h2]
    rfl
  exact ⟨by rw [e1, e2, hj], e1⟩

/-- Witness for `streaming_hash_deterministic`: the readers `[[]]` (one
empty read) and `[]` (immediate end of stream) are both well-behaved and
deliver the empty content. -/
theorem streaming_hash_deterministic_witness :
    wellBehavedChunks [[]] = true ∧ wellBehavedChunks ([] : List (List Nat)) = true ∧
    ([[]] : List (List Nat)).flatten = ([] : List (List Nat)).flatten ∧
    process (([[]] : List (List Nat)).map Except.ok) =
      process (([] : List (List Nat)).map Except.ok) := by
  refine ⟨by decide, by decide, rfl, ?_⟩
  exact (streaming_hash_deterministic [[]] [] (by decide) (by decide) rfl).1

/-- C2, counterexample: the big-file constant is not 1 GiB, and consequently
a 2 GiB (2,147,483,648-byte) file is not skipped by the size policy even with
skip-big set. -/
theorem size_thresholds_cex :
    ¬ BIG_FILE_SIZE = 1073741824 ∧ skip_condition true false 2147483648 = false := by
  constructor
  · decide
  · decide

/-- C2, amended: the constants compared against file size are
`SMALL_FILE_SIZE = 8 MiB = 8,388,608` bytes and
`BIG_FILE_SIZE = 1024 * SMALL_FILE_SIZE = 8 GiB = 8,589,934,592` bytes. -/
theorem size_threshold_constants :
    SMALL_FILE_SIZE = 8388608 ∧ BIG_FILE_SIZE = 8589934592 := by
  constructor
  · decide
  · decide

/-- C4: the size policy skips exactly when (skip-big and size strictly above
the big threshold) or (skip-small and size strictly below the small
threshold); at the thresholds themselves nothing is skipped, one byte above
the big threshold is skipped. -/
theorem skip_condition_spec :
    (∀ (b s : Bool) (size : Nat), skip_condition b s size = true ↔
      (b = true ∧ size > BIG_FILE_SIZE) ∨ (s = true ∧ size < SMALL_FILE_SIZE)) ∧
    skip_condition true false BIG_FILE_SIZE = false ∧
    skip_condition true false (BIG_FILE_SIZE + 1) = true ∧
    skip_condition false true SMALL_FILE_SIZE = false := by
  refine ⟨?_, by decide, by decide, by decide⟩
  intro b s size
  cases b <;> cases s <;> simp [skip_condition]

/-- C9: an error item from the walker is dropped by
`.filter_map(Result::ok)` before the classification engine runs: the entry
stream is unchanged, hence every strategy produces the identical result, and
the run is not aborted by the traversal error. -/
theorem walker_error_discarded (xs ys : List (Except Unit DirEntry)) :
    walk_filter (xs ++ Except.error () :: ys) = walk_filter (xs ++ ys) ∧
    file_names (walk_filter (xs ++ Except.error () :: ys)) =
      file_names (walk_filter (xs ++ ys)) ∧
    file_names_sizes (walk_filter (xs ++ Except.error () :: ys)) =
      file_names_sizes (walk_filter (xs ++ ys)) ∧
    ∀ b s : Bool, file_hashes (walk_filter (xs ++ Except.error () :: ys)) b s =
      file_hashes (walk_filter (xs ++ ys)) b s := by
  have h : walk_filter (xs ++ Except.error () :: ys) = walk_filter (xs ++ ys) := by
    simp [walk_filter, List.filterMap_append, List.filterMap_cons, Except.toOption]
  exact ⟨h, by rw [h], by rw [h], fun b s => by rw [h]⟩

/-- On a table whose groups are all non-empty, the code's report filter
`len != 1` coincides with the specification's `len >= 2`. -/
theorem filter_ne_one_eq_two_le {κ : Type} (t : List (κ × List DirEntry))
    (h : ∀ g ∈ t, g.2 ≠ []) :
    t.filter (fun g => g.2.length != 1) = t.filter (fun g => decide (2 ≤ g.2.length)) := by
  apply List.filter_congr
  intro g hg
  have h1 : 1 ≤ g.2.length := by
    cases hq : g.2 with
    | nil => exact absurd hq (h g hg)
    | cons a l => simp
  rcases Nat.lt_or_ge g.2.length 2 with hc | hc
  · have he : g.2.length = 1 := by omega
    simp [he]
  · have hne1 : g.2.length ≠ 1 := by omega
    have l1 : (g.2.length != 1) = true := by simp [hne1]
    have l2 : decide (2 ≤ g.2.length) = true := by simp [hc]
    rw [l1, l2]

/-- The length of the name-filtered entry list is the multiplicity of the
name in the stream. -/
theorem length_filter_eq_count (es : List DirEntry) (m : String) :
    (es.filter (fun e => decide (e.file_name = m))).length =
      (es.map DirEntry.file_name).count m := by
  induction es with
  | nil => simp
  | cons e rest ih =>
    by_cases h : e.file_name = m <;>
      simp [List.filter_cons, h, List.count_cons, ih]

/-- The number of groups `file_names` reports equals the number of base
names occurring more than once in the stream. -/
theorem file_names_length_eq (es : List DirEntry) :
    (file_names es).length =
      ((es.map DirEntry.file_name).dedup.filter
        (fun m => decide (1 < (es.map DirEntry.file_name).count m))).length := by
  classical
  have hnd : ((names_loop es []).map Prod.fst).Nodup :=
    names_loop_keys_nodup es [] (by simp)
  have hne : ∀ g ∈ names_loop es [], g.2 ≠ [] :=
    names_loop_groups_ne_nil es [] (by simp)
  have hlook : ∀ m, lookupGroup (names_loop es []) m =
      es.filter (fun e => decide (e.file_name = m)) := by
    intro m
    rw [names_loop_lookup es [] m]
    simp [lookupGroup]
  have hglen : ∀ g ∈ names_loop es [],
      g.2.length = (es.map DirEntry.file_name).count g.1 := by
    intro g hg
    have hv : lookupGroup (names_loop es []) g.1 = g.2 :=
      lookupGroup_eq_of_mem hnd hg
    rw [← hv, hlook, length_filter_eq_count]
  have hfc : (names_loop es []).filter (fun g => g.2.length != 1) =
      (names_loop es []).filter
        (fun g => decide (1 < (es.map DirEntry.file_name).count g.1)) := by
    rw [filter_ne_one_eq_two_le _ hne]
    apply List.filter_congr
    intro g hg
    rw [decide_eq_decide, ← hglen g hg]
    omega
  rw [file_names, List.length_map, hfc]
  have hmapf : ((names_loop es []).map Prod.fst).filter
        (fun m => decide (1 < (es.map DirEntry.file_name).count m)) =
      ((names_loop es []).filter
        (fun g => decide (1 < (es.map DirEntry.file_name).count g.1))).map Prod.fst :=
    List.filter_map Prod.fst (names_loop es [])
  rw [show ((names_loop es []).filter
        (fun g => decide (1 < (es.map DirEntry.file_name).count g.1))).length =
      (((names_loop es []).filter
        (fun g => decide (1 < (es.map DirEntry.file_name).count g.1))).map Prod.fst).length
    from (List.length_map _ _).symm, ← hmapf]
  have hmemk : ∀ a, a ∈ (names_loop es []).map Prod.fst ↔
      a ∈ es.map DirEntry.file_name := by
    intro a
    rw [names_loop_keys_mem]
    simp
  exact ((List.perm_ext_iff_of_nodup
      (hnd.filter _) ((List.nodup_dedup _).filter _)).mpr (fun a => by
    simp only [List.mem_filter, List.mem_dedup, hmemk a])).length_eq

/-- C5: the name-only strategy groups entries exactly as the partition of
the stream by base name (each name's group is the subsequence of entries
carrying that name, hence the partition), and the number of reported groups
equals the number of base names occurring more than once. -/
theorem name_grouping_partition (es : List DirEntry) (n : String) :
    lookupGroup (names_loop es []) n = es.filter (fun e => decide (e.file_name = n)) ∧
    (file_names es).length =
      ((es.map DirEntry.file_name).dedup.filter
        (fun m => decide (1 < (es.map DirEntry.file_name).count m))).length := by
  constructor
  · rw [names_loop_lookup es [] n]
    simp [lookupGroup]
  · exact file_names_length_eq es

/-- C3: for every entry stream, each strategy's group table maps every key
to exactly the subsequence of entries classified under that key, in producer
order, with unduplicated keys (so each entry is in exactly one group, the
group of its computed key, and nothing is ever removed).  The name-only
table is unconditional; for the two fallible strategies the table exists
exactly when the loop returns it. -/
theorem group_table_invariant (b s : Bool) (es : List DirEntry)
    (t1 : List ((String × Nat) × List DirEntry))
    (t2 : List ((String × Nat × List Nat) × List DirEntry)) :
    (∀ n, lookupGroup (names_loop es []) n =
      es.filter (fun e => decide (e.file_name = n))) ∧
    ((names_loop es []).map Prod.fst).Nodup ∧
    (names_sizes_loop es [] = Except.ok t1 →
      (∀ k : String × Nat, lookupGroup t1 k =
        es.filter (fun e => decide (e.file_name = k.1 ∧ e.metadata = Except.ok k.2))) ∧
      (t1.map Prod.fst).Nodup) ∧
    (hashes_loop b s es [] = Except.ok t2 →
      (∀ k, lookupGroup t2 k =
        es.filter (fun e => decide (entryOutcome b s e = Except.ok (some k)))) ∧
      (t2.map Prod.fst).Nodup) := by
  refine ⟨fun n => ?_, names_loop_keys_nodup es [] (by simp),
    fun h1 => ⟨fun k => ?_, names_sizes_loop_keys_nodup es [] t1 h1 (by simp)⟩,
    fun h2 => ⟨fun k => ?_, hashes_loop_keys_nodup b s es [] t2 h2 (by simp)⟩⟩
  · rw [names_loop_lookup es [] n]
    simp [lookupGroup]
  · rw [names_sizes_loop_lookup es [] t1 h1 k]
    simp [lookupGroup]
  · rw [hashes_loop_lookup b s es [] t2 h2 k]
    simp [lookupGroup]

/-- Witness for `group_table_invariant`: a one-entry stream of a zero-byte
`x.txt`, exercising the name-only part and both fallible-strategy parts at
their concrete tables. -/
theorem group_table_invariant_witness :
    lookupGroup (names_loop [sampleA] []) "x.txt" =
      [sampleA].filter (fun e => decide (e.file_name = "x.txt")) ∧
    lookupGroup [(("x.txt", (0 : Nat)), [sampleA])] ("x.txt", (0 : Nat)) =
      [sampleA].filter (fun e =>
        decide (e.file_name = "x.txt" ∧ e.metadata = Except.ok 0)) ∧
    lookupGroup [(("x.txt", 0, sha256 []), [sampleA])] ("x.txt", 0, sha256 []) =
      [sampleA].filter (fun e =>
        decide (entryOutcome false false e = Except.ok (some ("x.txt", 0, sha256 [])))) := by
  have h := group_table_invariant false false [sampleA]
    [(("x.txt", 0), [sampleA])] [(("x.txt", 0, sha256 []), [sampleA])]
  exact ⟨h.1 "x.txt", (h.2.2.1 rfl).1 ("x.txt", 0),
    (h.2.2.2 rfl).1 ("x.txt", 0, sha256 [])⟩

/-- C6: for every final group table any of the three strategies produces,
every group is non-empty (a group is created with its first member and
members are only appended), so the code's filter `len != 1` emits exactly
the groups with at least two members.  The name-only report is
unconditional; each fallible strategy's report is characterized whenever
that strategy's loop produces a table. -/
theorem duplicate_reporter_spec (es : List DirEntry) (b s : Bool)
    (t1 : List ((String × Nat) × List DirEntry))
    (t2 : List ((String × Nat × List Nat) × List DirEntry)) :
    (∀ g ∈ names_loop es [], g.2 ≠ []) ∧
    file_names es = ((names_loop es []).filter (fun g => decide (2 ≤ g.2.length))).map
      (fun g => (g.1, g.2.map DirEntry.path)) ∧
    (names_sizes_loop es [] = Except.ok t1 →
      (∀ g ∈ t1, g.2 ≠ []) ∧
      file_names_sizes es = Except.ok
        ((t1.filter (fun g => decide (2 ≤ g.2.length))).map
          (fun g => (g.1.1, g.2.map DirEntry.path)))) ∧
    (hashes_loop b s es [] = Except.ok t2 →
      (∀ g ∈ t2, g.2 ≠ []) ∧
      file_hashes es b s = Except.ok
        ((t2.filter (fun g => decide (2 ≤ g.2.length))).map
          (fun g => (g.1.1, g.2.map DirEntry.path)))) := by
  have hne0 : ∀ g ∈ names_loop es [], g.2 ≠ [] :=
    names_loop_groups_ne_nil es [] (by simp)
  refine ⟨hne0, ?_, fun h1 => ?_, fun h2 => ?_⟩
  · rw [file_names, filter_ne_one_eq_two_le _ hne0]
  · have hne1 : ∀ g ∈ t1, g.2 ≠ [] :=
      names_sizes_loop_groups_ne_nil es [] t1 h1 (by simp)
    refine ⟨hne1, ?_⟩
    rw [file_names_sizes, h1, Except.map, filter_ne_one_eq_two_le t1 hne1]
  · have hne2 : ∀ g ∈ t2, g.2 ≠ [] :=
      hashes_loop_groups_ne_nil b s es [] t2 h2 (by simp)
    refine ⟨hne2, ?_⟩
    rw [file_hashes, h2, Except.map, filter_ne_one_eq_two_le t2 hne2]

/-- Witness for `duplicate_reporter_spec`: two same-named zero-byte files
form one group of two, which all three strategies report. -/
theorem duplicate_reporter_spec_witness :
    file_names [sampleA, sampleB] =
      ((names_loop [sampleA, sampleB] []).filter (fun g => decide (2 ≤ g.2.length))).map
        (fun g => (g.1, g.2.map DirEntry.path)) ∧
    file_names_sizes [sampleA, sampleB] = Except.ok
      (([(("x.txt", (0 : Nat)), [sampleA, sampleB])].filter
          (fun g => decide (2 ≤ g.2.length))).map
        (fun g => (g.1.1, g.2.map DirEntry.path))) ∧
    file_hashes [sampleA, sampleB] false false = Except.ok
      (([(("x.txt", 0, sha256 []), [sampleA, sampleB])].filter
          (fun g => decide (2 ≤ g.2.length))).map
        (fun g => (g.1.1, g.2.map DirEntry.path))) := by
  have h := duplicate_reporter_spec [sampleA, sampleB] false false
    [(("x.txt", 0), [sampleA, sampleB])]
    [(("x.txt", 0, sha256 []), [sampleA, sampleB])]
  exact ⟨h.2.1, (h.2.2.1 rfl).2, (h.2.2.2 rfl).2⟩

/-- C7: a metadata failure aborts the whole name+size run and a metadata,
open, or read failure aborts the whole hash run: the result is the error and
no report at all is produced, not even for groups completed earlier. -/
theorem fatal_error_aborts (es : List DirEntry) (e : DirEntry) (b s : Bool)
    (he : e ∈ es) :
    (e.metadata = Except.error () → file_names_sizes es = Except.error ()) ∧
    (entryOutcome b s e = Except.error () → file_hashes es b s = Except.error ()) := by
  constructor
  · intro hm
    rw [file_names_sizes, names_sizes_loop_error_of_mem es e he hm []]
    rfl
  · intro hf
    rw [file_hashes, hashes_loop_error_of_mem b s es e he hf []]
    rfl

/-- Witness for `fatal_error_aborts`: a stream holding an unreadable entry
yields an error for both fallible strategies. -/
theorem fatal_error_aborts_witness :
    file_names_sizes [sampleBad] = Except.error () ∧
    file_hashes [sampleBad] true true = Except.error () := by
  have h := fatal_error_aborts [sampleBad] sampleBad true true (by simp)
  exact ⟨h.1 rfl, h.2 rfl⟩

/-- C8: a zero-byte file is not excluded when skip-small is unset (its size
cannot exceed the big threshold), the hash loop's first read yields zero
bytes and finalizes the empty-content digest without error, and two
same-named zero-byte files land in the same group and are reported
together. -/
theorem empty_file_hash_grouping (b : Bool) (e1 e2 : DirEntry)
    (hm1 : e1.metadata = Except.ok 0) (hm2 : e2.metadata = Except.ok 0)
    (ho1 : e1.openFile = Except.ok []) (ho2 : e2.openFile = Except.ok [])
    (hn : e2.file_name = e1.file_name) :
    process [] = Except.ok (sha256 []) ∧
    hashes_loop b false [e1, e2] [] =
      Except.ok [((e1.file_name, 0, sha256 []), [e1, e2])] ∧
    file_hashes [e1, e2] b false = Except.ok [(e1.file_name, [e1.path, e2.path])] := by
  have hskip : ¬ skip_condition b false 0 = true := by cases b <;> decide
  have hp : process [] = Except.ok (sha256 []) := rfl
  have h2 : hashes_loop b false [e1, e2] [] =
      Except.ok [((e1.file_name, 0, sha256 []), [e1, e2])] := by
    rw [hashes_loop]
    simp only [hm1, if_neg hskip, ho1, hp]
    rw [hashes_loop]
    simp only [hm2, if_neg hskip, ho2, hp, hn, insertEntry]
    rw [hashes_loop]
    simp [insertEntry]
  refine ⟨hp, h2, ?_⟩
  rw [file_hashes, h2]
  rfl

/-- Witness for `empty_file_hash_grouping`: the two concrete zero-byte
`x.txt` entries. -/
theorem empty_file_hash_grouping_witness :
    process [] = Except.ok (sha256 []) ∧
    file_hashes [sampleA, sampleB] false false =
      Except.ok [("x.txt", ["a/x.txt", "b/x.txt"])] := by
  have h := empty_file_hash_grouping false sampleA sampleB rfl rfl rfl rfl rfl
  exact ⟨h.1, h.2.2⟩

/-- C10: `file_hashes` reads an entry's metadata before consulting the size
policy, so a metadata failure aborts the run under every combination of the
skip toggles — including toggles under which the entry's size, had it been
readable, could only have led to a skip. -/
theorem metadata_error_before_skip (b s : Bool) (xs ys : List DirEntry)
    (e : DirEntry) (t : List ((String × Nat × List Nat) × List DirEntry))
    (hm : e.metadata = Except.error ()) (hx : hashes_loop b s xs [] = Except.ok t) :
    hashes_loop b s (xs ++ e :: ys) [] = Except.error () ∧
    file_hashes (xs ++ e :: ys) b s = Except.error () := by
  have h1 : ∀ t0 : List ((String × Nat × List Nat) × List DirEntry),
      hashes_loop b s (e :: ys) t0 = Except.error () := by
    intro t0
    rw [hashes_loop]
    simp only [hm]
  have h2 : hashes_loop b s (xs ++ e :: ys) [] = Except.error () := by
    rw [hashes_loop_append b s xs (e :: ys) [], hx]
    exact h1 t
  refine ⟨h2, ?_⟩
  rw [file_hashes, h2]
  rfl

/-- Witness for `metadata_error_before_skip`: with both skip toggles set, an
unreadable second entry still aborts the run after a successfully skipped
first entry. -/
theorem metadata_error_before_skip_witness :
    hashes_loop true true [sampleA, sampleBad] [] = Except.error () ∧
    file_hashes [sampleA, sampleBad] true true = Except.error () :=
  metadata_error_before_skip true true [sampleA] [] sampleBad [] rfl rfl

end Rustadup
